import Mathlib

/-! Shallow embedding of `Rust-Data-Analysis` (swim-meet qualifier counter).

This file embeds the functions of `src/main.rs` in Lean 4 and proves the
specification claims about them.

Modelling conventions:
* Rust `String` / `&str` is Lean `String`; every string primitive the program
  uses (`trim`, `replace`, `split`, `contains`, `eq_ignore_ascii_case`,
  `ends_with`) is given an explicit executable model over the underlying
  character list, mirroring the Rust standard library's documented behaviour.
* Rust `f64` is modelled as `ℚ` (exact rational arithmetic); `i32` parsing
  keeps the `i32` range check, and the parsed values are then treated as
  mathematical integers.
* `HashMap` is modelled as an association list with first-match lookup
  (`HashMap` keys are unique, so first-match lookup agrees with it);
  a `HashMap`/`HashSet`-valued accumulator is modelled as a function from
  keys to counts / `Finset`s.
* Rust numeric parsing (`parse::<f64>` / `parse::<i32>`) is modelled for
  plain decimal literals with an optional sign (and an optional fractional
  part for `f64`); exponent and infinity forms, which never occur in this
  program's data, are not modelled.
-/

namespace RustDataAnalysis

/-! Section: String primitives (models of the Rust standard library functions used) -/

/-- Model of Rust `str::trim` on a character list: drop whitespace from both
ends. -/
def trimList (cs : List Char) : List Char :=
  ((cs.dropWhile Char.isWhitespace).reverse.dropWhile Char.isWhitespace).reverse

/-- Model of Rust `str::trim`. -/
def strTrim (s : String) : String := ⟨trimList s.data⟩

/-- Does `pat` occur at the front of `cs`? (model of `str::starts_with`,
used by the `replace` scan). -/
def matchesFront : List Char → List Char → Bool
  | [], _ => true
  | _ :: _, [] => false
  | p :: ps, c :: cs => p == c && matchesFront ps cs

/-- Fuelled scan for `replaceList` (structural recursion on the fuel so that
the kernel can evaluate it; the wrapper supplies fuel `cs.length`, which
never runs out because every step consumes at least one character). -/
def replaceListFuel (pat rep : List Char) : ℕ → List Char → List Char
  | _, [] => []
  | 0, cs => cs
  | fuel + 1, c :: cs' =>
    if pat ≠ [] ∧ matchesFront pat (c :: cs') = true then
      rep ++ replaceListFuel pat rep fuel ((c :: cs').drop pat.length)
    else
      c :: replaceListFuel pat rep fuel cs'

/-- Model of Rust `str::replace` on character lists: scan left to right,
replacing non-overlapping occurrences of `pat` by `rep`.  The program never
calls `replace` with an empty pattern; an empty pattern is treated as a
no-op here. -/
def replaceList (pat rep cs : List Char) : List Char :=
  replaceListFuel pat rep cs.length cs

/-- Model of Rust `str::replace` on `String`. -/
def strReplace (s pat rep : String) : String :=
  ⟨replaceList pat.data rep.data s.data⟩

/-- Model of Rust `str::contains(char)`. -/
def strContainsChar (s : String) (c : Char) : Bool :=
  s.data.contains c

/-- Model of Rust `str::split(char)` on a character list.  Always returns a
non-empty list of parts. -/
def splitCharList (c : Char) : List Char → List (List Char)
  | [] => [[]]
  | a :: rest =>
    if a = c then [] :: splitCharList c rest
    else
      match splitCharList c rest with
      | [] => [[a]]
      | h :: t => (a :: h) :: t

/-- Model of Rust `str::split(char)` on `String`. -/
def strSplitChar (s : String) (c : Char) : List String :=
  (splitCharList c s.data).map (fun cs => ⟨cs⟩)

/-- Model of Rust `str::eq_ignore_ascii_case` (Lean's `Char.toLower` lowers
exactly the ASCII uppercase letters, as `to_ascii_lowercase` does). -/
def eqIgnoreAsciiCase (a b : String) : Bool :=
  a.data.map Char.toLower == b.data.map Char.toLower

/-- Model of Rust `str::ends_with(&str)` (used only by the spec-side reading
of `normalize_age`). -/
def strEndsWith (s pat : String) : Bool :=
  matchesFront pat.data.reverse s.data.reverse

/-! Section: Numeric parsing (models of Rust `str::parse`) -/

/-- Decimal value of a digit list (most significant first). -/
def digitsToNat (cs : List Char) : ℕ :=
  cs.foldl (fun acc c => 10 * acc + (c.toNat - 48)) 0

/-- Parse a non-empty all-digit character list to a natural number. -/
def digitStrToNat? (cs : List Char) : Option ℕ :=
  if cs ≠ [] ∧ cs.all Char.isDigit then some (digitsToNat cs) else none

/-- Model of Rust `str::parse::<i32>`: optional sign, a non-empty run of
digits, and the `i32` range check. -/
def parseI32 (s : String) : Option ℤ :=
  match s.data with
  | '+' :: rest =>
    (digitStrToNat? rest).bind fun n =>
      if n ≤ 2147483647 then some (n : ℤ) else none
  | '-' :: rest =>
    (digitStrToNat? rest).bind fun n =>
      if n ≤ 2147483648 then some (-(n : ℤ)) else none
  | cs =>
    (digitStrToNat? cs).bind fun n =>
      if n ≤ 2147483647 then some (n : ℤ) else none

/-- Value of a fractional digit run: `"30"` contributes `30 / 10 ^ 2`. -/
def fracToRat (cs : List Char) : ℚ :=
  (digitsToNat cs : ℚ) / 10 ^ cs.length

/-- Unsigned part of Rust `str::parse::<f64>` for plain decimal literals:
`digits`, `digits.`, `.digits` or `digits.digits`. -/
def parseUnsignedF (cs : List Char) : Option ℚ :=
  let intPart := cs.takeWhile Char.isDigit
  match cs.dropWhile Char.isDigit with
  | [] => if intPart = [] then none else some (digitsToNat intPart)
  | '.' :: frac =>
    if frac.all Char.isDigit ∧ ¬(intPart = [] ∧ frac = []) then
      some ((digitsToNat intPart : ℚ) + fracToRat frac)
    else none
  | _ => none

/-- Model of Rust `str::parse::<f64>` (plain decimal literals with optional
sign; `f64` values are modelled exactly as `ℚ`). -/
def parseF64 (s : String) : Option ℚ :=
  match s.data with
  | '-' :: rest => (parseUnsignedF rest).map (fun q => -q)
  | '+' :: rest => parseUnsignedF rest
  | cs => parseUnsignedF cs

/-! Section: The `calamine` cell type and `time_to_seconds` -/

/-- The `calamine::Data` cell type.  `DateTime` carries the value of
`ExcelDateTime::as_f64` (a fraction of a day); `Error` abstracts over the
particular `CellErrorType`. -/
inductive Data where
  | Float (f : ℚ)
  | Int (i : ℤ)
  | DateTime (asF64 : ℚ)
  | String (s : String)
  | Bool (b : Bool)
  | DateTimeIso (s : String)
  | DurationIso (s : String)
  | Error
  | Empty
deriving DecidableEq, Repr

/-- `time_to_seconds` from `src/main.rs`. -/
def time_to_seconds (value : Data) : Option ℚ :=
  match value with
  | .Float f => some f
  | .Int i => some (i : ℚ)
  | .DateTime dt => some (dt * 86400)
  | .String s =>
    let t := strTrim s
    if t = "" ∨ eqIgnoreAsciiCase t "nan" = true then none
    else if strContainsChar t ':' then
      match strSplitChar t ':' with
      | [p1, p2] =>
        match parseF64 p1, parseF64 p2 with
        | some minutes, some seconds => some (minutes * 60 + seconds)
        | _, _ => none
      | _ => parseF64 t
    else parseF64 t
  | _ => none

/-! Section: Event and age normalisation -/

/-- `normalize_event_name` from `src/main.rs`. -/
def normalize_event_name (event : String) : Option String :=
  if strTrim event = "" then none
  else
    let n := strTrim event
    let n := strReplace (strReplace n "m" "") " " ""
    let n := strReplace n "Free" "Fr"
    let n := strReplace n "Fly" "Bu"
    let n := strReplace n "Back" "Bk"
    let n := strReplace n "Breast" "Br"
    let n := strReplace n "M.E." "Me"
    let n := strReplace n "M.E" "Me"
    let n := strReplace n "I.M." "Me"
    let n := strReplace n "I.M" "Me"
    let n := strReplace n "FL" "Bu"
    some n

/-- `normalize_age` from `src/main.rs`: trim, then replace every occurrence
of `"&U"` by the empty string. -/
def normalize_age (age : String) : String :=
  strReplace (strTrim age) "&U" ""

/-- The claim's reading of `normalize_age`, stated from the spec's words:
trim, strip a *trailing* `"&U"` marker if present, and return the remaining
digits. -/
def normalize_age_claimed (age : String) : String :=
  let t := strTrim age
  let t := if strEndsWith t "&U" then ⟨t.data.dropLast.dropLast⟩ else t
  ⟨t.data.filter Char.isDigit⟩

/-! Section: Age resolution (`find_best_age_match`) -/

/-- The sort key order used by `age_nums.sort_by_key(|(num, _)| *num)`. -/
def ageKeyLE (p q : ℤ × String) : Prop := p.1 ≤ q.1

instance : DecidableRel ageKeyLE := fun p q => inferInstanceAs (Decidable (p.1 ≤ q.1))

instance : IsTotal (ℤ × String) ageKeyLE := ⟨fun a b => le_total a.1 b.1⟩

instance : IsTrans (ℤ × String) ageKeyLE := ⟨fun _ _ _ h1 h2 => le_trans h1 h2⟩

/-- Model of Rust `Iterator::min_by_key` (restricted to a `ℕ`-valued key):
the first element attaining the minimum key, as documented for
`min_by_key`. -/
def minByFirst (f : α → ℕ) : List α → Option α
  | [] => none
  | x :: xs => some (xs.foldl (fun b y => if f y < f b then y else b) x)

/-- The numeric candidates `(parsed value, original label)` that
`find_best_age_match` builds from the available age labels (its
`age_nums` before sorting). -/
def ageCandidates (available_ages : List String) : List (ℤ × String) :=
  available_ages.filterMap fun a => (parseI32 a).map fun num => (num, a)

/-- `find_best_age_match` from `src/main.rs`.  `sort_by_key` is modelled by
the stable `List.insertionSort`; `min_by_key` by `minByFirst`.  The key
`(athlete_age_num - num).abs()` is modelled with exact integer arithmetic
(the `i32` overflow of the subtraction, unreachable for age-like values, is
not modelled). -/
def find_best_age_match (athlete_age : String) (available_ages : List String) :
    Option String :=
  (parseI32 athlete_age).bind fun athlete_age_num =>
    let age_nums := ageCandidates available_ages
    let sorted := age_nums.insertionSort ageKeyLE
    match sorted with
    | [] => none
    | first :: _ =>
      match sorted.find? (fun p => p.1 == athlete_age_num) with
      | some p => some p.2
      | none =>
        if athlete_age_num < first.1 then some first.2
        else
          let last := sorted.getLastD first
          if athlete_age_num > last.1 then some last.2
          else
            (minByFirst (fun p => (athlete_age_num - p.1).natAbs) sorted).map
              Prod.snd

/-! Section: Meet results, standards tables and the counting passes -/

/-- A parsed meet result (`struct MeetResult`). -/
structure MeetResult where
  course : String
  sex : String
  age : String
  event : String
  time : ℚ
  name : String
deriving DecidableEq, Repr

/-- `(sex, age, event)`, the key of the qualifier-count map. -/
abbrev StandardKey := String × String × String

/-- `{age_group: qualifying_time}` (a `HashMap` modelled as an association
list with first-match lookup). -/
abbrev AgeGroupStandards := List (String × ℚ)

/-- `{event: {age: time}}`. -/
abbrev EventStandards := List (String × AgeGroupStandards)

/-- `{gender: {event: {age: time}}}`. -/
abbrev AllStandards := List (String × EventStandards)

/-- The literal-age standard lookup performed by `count_qualifiers`:
sex, then event, then the result's literal age. -/
def standardFor (standards : AllStandards) (sex event age : String) : Option ℚ :=
  (standards.lookup sex).bind fun gender_standards =>
    (gender_standards.lookup event).bind fun event_standards =>
      event_standards.lookup age

/-- Loop body of `count_qualifiers`: the effect of one `MeetResult` on the
count map. -/
def cqStep (standards : AllStandards) (counts : StandardKey → ℕ)
    (result : MeetResult) : StandardKey → ℕ :=
  match standards.lookup result.sex with
  | none => counts
  | some gender_standards =>
    match gender_standards.lookup result.event with
    | none => counts
    | some event_standards =>
      match event_standards.lookup result.age with
      | none => counts
      | some qualifying_time =>
        if result.time ≤ qualifying_time then
          fun k =>
            if k = (result.sex, result.age, result.event) then counts k + 1
            else counts k
        else counts

/-- `count_qualifiers` from `src/main.rs`: the map
`(sex, age, event) → count` built by the literal-age pass, modelled as a
function (a missing entry is a count of `0`). -/
def count_qualifiers (meet_results : List MeetResult) (standards : AllStandards) :
    StandardKey → ℕ :=
  meet_results.foldl (cqStep standards) (fun _ => 0)

/-- Loop body of `count_unique_qualifiers`: the effect of one `MeetResult`
on the `(sex, matched_age) → set of names` map. -/
def uqStep (standards : AllStandards)
    (unique_qualifiers : String × String → Finset String)
    (result : MeetResult) : String × String → Finset String :=
  if result.name = "" then unique_qualifiers
  else
    match standards.lookup result.sex with
    | none => unique_qualifiers
    | some gender_standards =>
      match gender_standards.lookup result.event with
      | none => unique_qualifiers
      | some event_standards =>
        let available_ages := event_standards.map Prod.fst
        match find_best_age_match result.age available_ages with
        | none => unique_qualifiers
        | some matched_age =>
          match event_standards.lookup matched_age with
          | none => unique_qualifiers
          | some qualifying_time =>
            if result.time ≤ qualifying_time then
              fun k =>
                if k = (result.sex, matched_age) then
                  insert result.name (unique_qualifiers k)
                else unique_qualifiers k
            else unique_qualifiers

/-- `count_unique_qualifiers` from `src/main.rs`: the map
`(sex, matched_age) → set of names`, modelled as a `Finset`-valued
function (a missing entry is `∅`). -/
def count_unique_qualifiers (meet_results : List MeetResult)
    (standards : AllStandards) : String × String → Finset String :=
  meet_results.foldl (uqStep standards) (fun _ => ∅)

/-- The `total_athletes` accumulation from `main` in `src/main.rs`:
every named result's age is resolved against the age labels of the first
event the gender's standards iterator yields (`iter().next()`, modelled as
the first entry of the association list), and the name is recorded under
`(sex, matched_age)` regardless of qualification.  This is the loop body
for one `MeetResult`. -/
def taStep (standards : AllStandards)
    (athletes : String × String → Finset String)
    (result : MeetResult) : String × String → Finset String :=
  if result.name = "" then athletes
  else
    match standards.lookup result.sex with
    | none => athletes
    | some gender_standards =>
      match gender_standards with
      | [] => athletes
      | (_, event_standards) :: _ =>
        let available_ages := event_standards.map Prod.fst
        match find_best_age_match result.age available_ages with
        | none => athletes
        | some matched_age =>
          fun k =>
            if k = (result.sex, matched_age) then
              insert result.name (athletes k)
            else athletes k

/-- The `total_athletes` map of `main`, folded over all results. -/
def total_athletes (meet_results : List MeetResult) (standards : AllStandards) :
    String × String → Finset String :=
  meet_results.foldl (taStep standards) (fun _ => ∅)

/-! Section: Helper lemmas -/

theorem strContainsChar_mem {s : String} {c : Char}
    (h : strContainsChar s c = true) : c ∈ s.data := by
  simpa [strContainsChar, List.contains, List.elem_iff] using h

theorem strContainsChar_ne_empty {s : String} {c : Char}
    (h : strContainsChar s c = true) : s ≠ "" := by
  intro he
  subst he
  simp [strContainsChar] at h

theorem mem_of_eqIgnoreAsciiCase_nan {t : String}
    (h : eqIgnoreAsciiCase t "nan" = true) : ':' ∉ t.data := by
  intro hc
  have hmap : t.data.map Char.toLower = ['n', 'a', 'n'] := by
    have h' : t.data.map Char.toLower = "nan".data.map Char.toLower := by
      simpa [eqIgnoreAsciiCase] using h
    rw [h']
    decide
  have hin : Char.toLower ':' ∈ t.data.map Char.toLower :=
    List.mem_map_of_mem _ hc
  rw [hmap] at hin
  revert hin
  decide

theorem parseUnsignedF_eq_none_of_colon {cs : List Char} (h : ':' ∈ cs) :
    parseUnsignedF cs = none := by
  have hsplit := List.takeWhile_append_dropWhile (p := Char.isDigit) (l := cs)
  have hnotake : ':' ∉ cs.takeWhile Char.isDigit := by
    intro hmem
    have := List.mem_takeWhile_imp hmem
    simp at this
  unfold parseUnsignedF
  split
  · next heq =>
    exfalso
    apply hnotake
    have : cs = cs.takeWhile Char.isDigit := by
      conv_lhs => rw [← hsplit]
      rw [heq, List.append_nil]
    exact this ▸ h
  · next frac heq =>
    have hfrac : ':' ∈ frac := by
      have hmem : ':' ∈ cs.takeWhile Char.isDigit ++ cs.dropWhile Char.isDigit := by
        rw [hsplit]; exact h
      rcases List.mem_append.mp hmem with h1 | h2
      · exact absurd h1 hnotake
      · rw [heq] at h2
        rcases List.mem_cons.mp h2 with h3 | h3
        · exact absurd h3 (by decide)
        · exact h3
    have hall : ¬(frac.all Char.isDigit = true) := by
      intro hall
      have := List.all_eq_true.mp hall ':' hfrac
      simp at this
    rw [if_neg]
    intro hcond
    exact hall hcond.1
  · rfl

theorem parseF64_eq_none_of_colon {s : String} (h : ':' ∈ s.data) :
    parseF64 s = none := by
  unfold parseF64
  split
  · next rest heq =>
    have : ':' ∈ rest := by
      rw [heq] at h
      rcases List.mem_cons.mp h with h1 | h1
      · exact absurd h1 (by decide)
      · exact h1
    rw [parseUnsignedF_eq_none_of_colon this]
    rfl
  · next rest heq =>
    have : ':' ∈ rest := by
      rw [heq] at h
      rcases List.mem_cons.mp h with h1 | h1
      · exact absurd h1 (by decide)
      · exact h1
    exact parseUnsignedF_eq_none_of_colon this
  · next heq _ _ =>
    exact parseUnsignedF_eq_none_of_colon h

/-! Section: Claim theorems -/

/-- C5: `normalize_event_name` returns `none` exactly when the input is
blank or whitespace-only; otherwise it trims the input, deletes every
literal `'m'` character and every space character, then applies in order
the substring replacements `Free→Fr`, `Fly→Bu`, `Back→Bk`, `Breast→Br`,
`"M.E."→Me`, `"M.E"→Me`, `"I.M."→Me`, `"I.M"→Me`, and finally `"FL"→Bu`
(longer overlapping patterns before shorter ones). -/
theorem normalize_event_name_spec (event : String) :
    (normalize_event_name event = none ↔ strTrim event = "") ∧
    (strTrim event ≠ "" →
      normalize_event_name event =
        some (strReplace (strReplace (strReplace (strReplace (strReplace
          (strReplace (strReplace (strReplace (strReplace (strReplace
            (strReplace (strTrim event) "m" "") " " "")
            "Free" "Fr") "Fly" "Bu") "Back" "Bk") "Breast" "Br")
            "M.E." "Me") "M.E" "Me") "I.M." "Me") "I.M" "Me") "FL" "Bu")) := by
  unfold normalize_event_name
  constructor
  · split <;> simp_all
  · intro h
    simp [h]

/-- Witness for C5 at the concrete input `"200 Free"`. -/
theorem normalize_event_name_spec_witness :
    strTrim "200 Free" ≠ "" ∧
      normalize_event_name "200 Free" =
        some (strReplace (strReplace (strReplace (strReplace (strReplace
          (strReplace (strReplace (strReplace (strReplace (strReplace
            (strReplace (strTrim "200 Free") "m" "") " " "")
            "Free" "Fr") "Fly" "Bu") "Back" "Bk") "Breast" "Br")
            "M.E." "Me") "M.E" "Me") "I.M." "Me") "I.M" "Me") "FL" "Bu") :=
  ⟨by decide, (normalize_event_name_spec "200 Free").2 (by decide)⟩

/-- C10: `normalize_event_name` maps `"200 Free"`, `"200Free"` and
`"200 Fr"` to the same canonical string, and is a deterministic function of
its input. -/
theorem normalize_event_name_canonical :
    normalize_event_name "200 Free" = some "200Fr" ∧
    normalize_event_name "200Free" = some "200Fr" ∧
    normalize_event_name "200 Fr" = some "200Fr" ∧
    ∀ s t : String, s = t → normalize_event_name s = normalize_event_name t := by
  refine ⟨by decide, by decide, by decide, ?_⟩
  intro s t h
  rw [h]

/-- Witness for C10: the determinism clause applied at a concrete input. -/
theorem normalize_event_name_canonical_witness :
    normalize_event_name "200 Free" = normalize_event_name "200 Free" :=
  normalize_event_name_canonical.2.2.2 "200 Free" "200 Free" rfl

/-- C8 counterexample: `normalize_age` does not merely strip a
*trailing* `"&U"` marker and keep digits: on `"a&Ub"` the code deletes the
interior `"&U"` and keeps the non-digits, returning `"ab"`, while the
claimed behaviour returns `""`. -/
theorem normalize_age_counterexample :
    normalize_age "a&Ub" = "ab" ∧ normalize_age_claimed "a&Ub" = "" ∧
      normalize_age "a&Ub" ≠ normalize_age_claimed "a&Ub" := by
  refine ⟨by decide, by decide, by decide⟩

/-- C8 amended: `normalize_age` trims the input and replaces every
occurrence of the substring `"&U"` (not only a trailing marker) by the
empty string, returning the remaining characters unchanged; in particular
`normalize_age "13&U" = normalize_age "13" = "13"`. -/
theorem normalize_age_amended :
    (∀ age : String, normalize_age age = strReplace (strTrim age) "&U" "") ∧
    normalize_age "13&U" = "13" ∧ normalize_age "13" = "13" ∧
    normalize_age "a&Ub" = "ab" :=
  ⟨fun _ => rfl, by decide, by decide, by decide⟩

/-- C6: `time_to_seconds` returns the value itself for a float cell,
the value promoted for an integer cell, the value times `86400` for a
date/time cell, `minutes * 60 + seconds` for a text cell containing a
colon that splits into exactly two numeric parts, and the whole trimmed
text parsed as a float for colon-free text; `"1:05.30"` yields `65.30`. -/
theorem time_to_seconds_spec :
    (∀ f : ℚ, time_to_seconds (.Float f) = some f) ∧
    (∀ i : ℤ, time_to_seconds (.Int i) = some (i : ℚ)) ∧
    (∀ dt : ℚ, time_to_seconds (.DateTime dt) = some (dt * 86400)) ∧
    (∀ (s p1 p2 : String) (m sec : ℚ),
      strContainsChar (strTrim s) ':' = true →
      strSplitChar (strTrim s) ':' = [p1, p2] →
      parseF64 p1 = some m → parseF64 p2 = some sec →
      time_to_seconds (.String s) = some (m * 60 + sec)) ∧
    (∀ s : String, strTrim s ≠ "" →
      eqIgnoreAsciiCase (strTrim s) "nan" = false →
      strContainsChar (strTrim s) ':' = false →
      time_to_seconds (.String s) = parseF64 (strTrim s)) ∧
    time_to_seconds (.String "1:05.30") = some (653 / 10) := by
  refine ⟨fun f => rfl, fun i => rfl, fun dt => rfl, ?_, ?_, ?_⟩
  · intro s p1 p2 m sec hc hsplit hm hsec
    have hne : strTrim s ≠ "" := strContainsChar_ne_empty hc
    have hnan : ¬eqIgnoreAsciiCase (strTrim s) "nan" = true := fun h =>
      mem_of_eqIgnoreAsciiCase_nan h (strContainsChar_mem hc)
    simp only [time_to_seconds]
    rw [if_neg (fun h => h.elim hne hnan), if_pos hc, hsplit]
    simp only [hm, hsec]
  · intro s hne hnan hc
    simp only [time_to_seconds]
    rw [if_neg (fun h => h.elim hne (fun h' => by rw [hnan] at h'; exact Bool.false_ne_true h')),
      if_neg (fun h => by rw [hc] at h; exact Bool.false_ne_true h)]
  · simp +decide [time_to_seconds, strTrim, trimList, strContainsChar, strSplitChar,
      splitCharList, parseF64, parseUnsignedF, digitsToNat, fracToRat, eqIgnoreAsciiCase]
    norm_num

/-- Witness for C6: the colon branch applied at `"1:05.30"`. -/
theorem time_to_seconds_spec_witness :
    time_to_seconds (Data.String "1:05.30") = some (1 * 60 + 53 / 10) :=
  time_to_seconds_spec.2.2.2.1 "1:05.30" "1" "05.30" 1 (53 / 10)
    (by decide) (by decide)
    (by simp +decide [parseF64, parseUnsignedF, digitsToNat])
    (by simp +decide [parseF64, parseUnsignedF, digitsToNat, fracToRat]; norm_num)

/-- C7: `time_to_seconds` returns `none` for: text that trims to empty
or case-insensitively equals `"nan"`; text containing a colon whose split
does not yield exactly two numeric parts; colon-free text that does not
parse as a float; and every cell kind other than float, integer,
date/time, or text. -/
theorem time_to_seconds_none_spec :
    (∀ s : String, strTrim s = "" → time_to_seconds (.String s) = none) ∧
    (∀ s : String, eqIgnoreAsciiCase (strTrim s) "nan" = true →
      time_to_seconds (.String s) = none) ∧
    (∀ s : String, strContainsChar (strTrim s) ':' = true →
      (strSplitChar (strTrim s) ':').length ≠ 2 →
      time_to_seconds (.String s) = none) ∧
    (∀ (s p1 p2 : String), strContainsChar (strTrim s) ':' = true →
      strSplitChar (strTrim s) ':' = [p1, p2] →
      (parseF64 p1 = none ∨ parseF64 p2 = none) →
      time_to_seconds (.String s) = none) ∧
    (∀ s : String, strContainsChar (strTrim s) ':' = false →
      parseF64 (strTrim s) = none → time_to_seconds (.String s) = none) ∧
    (∀ b, time_to_seconds (.Bool b) = none) ∧
    time_to_seconds .Empty = none ∧
    time_to_seconds .Error = none ∧
    (∀ s, time_to_seconds (.DateTimeIso s) = none) ∧
    (∀ s, time_to_seconds (.DurationIso s) = none) := by
  refine ⟨?_, ?_, ?_, ?_, ?_, fun b => rfl, rfl, rfl, fun s => rfl, fun s => rfl⟩
  · intro s h
    simp only [time_to_seconds]
    rw [if_pos (Or.inl h)]
  · intro s h
    simp only [time_to_seconds]
    rw [if_pos (Or.inr h)]
  · intro s hc hlen
    by_cases hcond : strTrim s = "" ∨ eqIgnoreAsciiCase (strTrim s) "nan" = true
    · simp only [time_to_seconds]
      rw [if_pos hcond]
    · simp only [time_to_seconds]
      rw [if_neg hcond, if_pos hc]
      split
      · next p1 p2 heq =>
        exfalso
        apply hlen
        rw [heq]
        rfl
      · exact parseF64_eq_none_of_colon (strContainsChar_mem hc)
  · intro s p1 p2 hc hsplit hnone
    by_cases hcond : strTrim s = "" ∨ eqIgnoreAsciiCase (strTrim s) "nan" = true
    · simp only [time_to_seconds]
      rw [if_pos hcond]
    · simp only [time_to_seconds]
      rw [if_neg hcond, if_pos hc, hsplit]
      rcases hnone with h1 | h1
      · simp only [h1]
      · simp only [h1]
        cases parseF64 p1 <;> rfl
  · intro s hc hp
    by_cases hcond : strTrim s = "" ∨ eqIgnoreAsciiCase (strTrim s) "nan" = true
    · simp only [time_to_seconds]
      rw [if_pos hcond]
    · simp only [time_to_seconds]
      rw [if_neg hcond,
        if_neg (fun h => by rw [hc] at h; exact Bool.false_ne_true h)]
      exact hp

/-- Witness for C7: `"1:2:3"` (three colon parts) and `"a:b"` (non-numeric
parts) both yield `none`. -/
theorem time_to_seconds_none_witness :
    time_to_seconds (Data.String "1:2:3") = none ∧
      time_to_seconds (Data.String "a:b") = none :=
  ⟨time_to_seconds_none_spec.2.2.1 "1:2:3" (by decide) (by decide),
   time_to_seconds_none_spec.2.2.2.1 "a:b" "a" "b" (by decide) (by decide)
     (Or.inl (by decide))⟩

theorem count_qualifiers_append (meet_results : List MeetResult)
    (r : MeetResult) (standards : AllStandards) :
    count_qualifiers (meet_results ++ [r]) standards =
      cqStep standards (count_qualifiers meet_results standards) r := by
  simp [count_qualifiers, List.foldl_append]

theorem cqStep_apply (standards : AllStandards) (c : StandardKey → ℕ)
    (r : MeetResult) (k : StandardKey) :
    cqStep standards c r k =
      if k = (r.sex, r.age, r.event) ∧
          ∃ qt, standardFor standards r.sex r.event r.age = some qt ∧
            r.time ≤ qt then
        c k + 1
      else c k := by
  unfold cqStep standardFor
  rcases hsex : standards.lookup r.sex with _ | gs
  · simp [hsex]
  · rcases hev : gs.lookup r.event with _ | es
    · simp [hsex, hev]
    · rcases hag : es.lookup r.age with _ | qt
      · simp [hsex, hev, hag]
      · simp only [hsex, hev, hag, Option.bind]
        by_cases hle : r.time ≤ qt
        · rw [if_pos hle]
          by_cases hk : k = (r.sex, r.age, r.event)
          · rw [if_pos hk, if_pos ⟨hk, qt, rfl, hle⟩]
          · rw [if_neg hk, if_neg (fun h => hk h.1)]
        · rw [if_neg hle, if_neg]
          rintro ⟨-, qt', hqt', hle'⟩
          rw [Option.some_inj.mp hqt'] at hle
          exact hle hle'

/-- C1: Appending a meet result `r` to the input increments the
`QualifierCounts` entry at key `(r.sex, r.age, r.event)` by exactly one if
and only if the standards table has a qualifying time for the exact triple
`(r.sex, r.event, literal r.age)` and `r.time` is at most that time; every
other entry, and that entry when the condition fails, is unchanged (no age
resolution is applied in this pass). -/
theorem count_qualifiers_increment (meet_results : List MeetResult)
    (r : MeetResult) (standards : AllStandards) (k : StandardKey) :
    (count_qualifiers (meet_results ++ [r]) standards k =
        count_qualifiers meet_results standards k + 1 ↔
      k = (r.sex, r.age, r.event) ∧
        ∃ qt, standardFor standards r.sex r.event r.age = some qt ∧
          r.time ≤ qt) ∧
    (count_qualifiers (meet_results ++ [r]) standards k =
        count_qualifiers meet_results standards k ↔
      ¬(k = (r.sex, r.age, r.event) ∧
        ∃ qt, standardFor standards r.sex r.event r.age = some qt ∧
          r.time ≤ qt)) := by
  rw [count_qualifiers_append, cqStep_apply]
  by_cases h : k = (r.sex, r.age, r.event) ∧
      ∃ qt, standardFor standards r.sex r.event r.age = some qt ∧ r.time ≤ qt
  · rw [if_pos h]
    simp [h]
  · rw [if_neg h]
    simp [h]

theorem uqStep_mem (standards : AllStandards)
    (acc : String × String → Finset String) (r : MeetResult)
    (s ag n : String) :
    n ∈ uqStep standards acc r (s, ag) ↔
      (r.name = n ∧ r.name ≠ "" ∧ r.sex = s ∧
        ∃ es, (standards.lookup r.sex).bind
            (fun gender_standards => gender_standards.lookup r.event) = some es ∧
          find_best_age_match r.age (es.map Prod.fst) = some ag ∧
          ∃ qt, es.lookup ag = some qt ∧ r.time ≤ qt) ∨
      n ∈ acc (s, ag) := by
  unfold uqStep
  by_cases hname : r.name = ""
  · simp [hname]
  · rcases hsex : standards.lookup r.sex with _ | gs
    · simp [hname, hsex]
    · rcases hev : gs.lookup r.event with _ | es
      · simp [hname, hsex, hev, Option.bind]
      · rcases hfb : find_best_age_match r.age (es.map Prod.fst) with _ | ma
        · simp [hname, hsex, hev, hfb, Option.bind]
        · rcases hqt : es.lookup ma with _ | qt
          · by_cases hag2 : ag = ma
            · subst hag2
              simp [hname, hsex, hev, hfb, hqt, Option.bind]
            · have hag2' : ma ≠ ag := fun h => hag2 h.symm
              simp [hname, hsex, hev, hfb, hqt, Option.bind, hag2']
          · by_cases hle : r.time ≤ qt
            · by_cases hs : s = r.sex
              · by_cases hag2 : ag = ma
                · subst hs
                  subst hag2
                  simp [hname, hsex, hev, hfb, hqt, hle, Option.bind,
                    Finset.mem_insert, eq_comm]
                · have hag2' : ma ≠ ag := fun h => hag2 h.symm
                  simp [hname, hsex, hev, hfb, hqt, hle, Option.bind,
                    Prod.ext_iff, hag2, hag2']
              · have hs' : r.sex ≠ s := fun h => hs h.symm
                simp [hname, hsex, hev, hfb, hqt, hle, Option.bind,
                  Prod.ext_iff, hs, hs']
            · simp [hname, hsex, hev, hfb, hqt, hle, Option.bind]
              rintro - - rfl x hx hlex
              rw [hqt] at hx
              rw [Option.some_inj.mp hx] at hle
              exact absurd hlex hle

theorem foldl_uqStep_mem (standards : AllStandards) (rs : List MeetResult)
    (acc : String × String → Finset String) (s ag n : String) :
    n ∈ (rs.foldl (uqStep standards) acc) (s, ag) ↔
      (∃ r ∈ rs, r.name = n ∧ r.name ≠ "" ∧ r.sex = s ∧
        ∃ es, (standards.lookup r.sex).bind
            (fun gender_standards => gender_standards.lookup r.event) = some es ∧
          find_best_age_match r.age (es.map Prod.fst) = some ag ∧
          ∃ qt, es.lookup ag = some qt ∧ r.time ≤ qt) ∨
      n ∈ acc (s, ag) := by
  induction rs generalizing acc with
  | nil => simp
  | cons r rs ih =>
    simp only [List.foldl_cons]
    rw [ih, uqStep_mem]
    simp only [List.mem_cons]
    constructor
    · rintro (⟨r', hr', hc⟩ | (hc | h))
      · exact Or.inl ⟨r', Or.inr hr', hc⟩
      · exact Or.inl ⟨r, Or.inl rfl, hc⟩
      · exact Or.inr h
    · rintro (⟨r', hr' | hr', hc⟩ | h)
      · subst hr'
        exact Or.inr (Or.inl hc)
      · exact Or.inl ⟨r', hr', hc⟩
      · exact Or.inr (Or.inr h)

/-- C3: A name `n` is in the `UniqueQualifiers` set at `(s, ag)` iff
some result in the input carries that (non-empty) name, has sex `s`, its
sex and event are found in the standards table, its age resolves to `ag`
via `find_best_age_match` over that event's age labels, and its time is at
most the resolved age's qualifying time.  Empty-name results never
contribute, and membership is independent of how many results contribute
it (set semantics: an athlete qualifying through several events at the
same `(sex, resolved age)` is counted once). -/
theorem count_unique_qualifiers_mem (meet_results : List MeetResult)
    (standards : AllStandards) (s ag n : String) :
    n ∈ count_unique_qualifiers meet_results standards (s, ag) ↔
      ∃ r ∈ meet_results, r.name = n ∧ r.name ≠ "" ∧ r.sex = s ∧
        ∃ es, (standards.lookup r.sex).bind
            (fun gender_standards => gender_standards.lookup r.event) = some es ∧
          find_best_age_match r.age (es.map Prod.fst) = some ag ∧
          ∃ qt, es.lookup ag = some qt ∧ r.time ≤ qt := by
  unfold count_unique_qualifiers
  rw [foldl_uqStep_mem]
  simp

theorem taStep_mem (standards : AllStandards)
    (acc : String × String → Finset String) (r : MeetResult)
    (s ag n : String) :
    n ∈ taStep standards acc r (s, ag) ↔
      (r.name = n ∧ r.name ≠ "" ∧ r.sex = s ∧
        ∃ e es rest, standards.lookup r.sex = some ((e, es) :: rest) ∧
          find_best_age_match r.age (es.map Prod.fst) = some ag) ∨
      n ∈ acc (s, ag) := by
  unfold taStep
  by_cases hname : r.name = ""
  · simp [hname]
  · rcases hsex : standards.lookup r.sex with _ | gs
    · simp [hname, hsex]
    · rcases gs with _ | ⟨⟨e, es⟩, rest⟩
      · simp [hname, hsex]
      · rcases hfb : find_best_age_match r.age (es.map Prod.fst) with _ | ma
        · simp [hname, hsex, hfb]
        · by_cases hs : s = r.sex
          · by_cases hag2 : ag = ma
            · subst hs
              subst hag2
              simp [hname, hsex, hfb, Finset.mem_insert, eq_comm]
              constructor
              · rintro (h | h)
                · exact Or.inl ⟨h, e, es, ⟨rfl, rfl⟩, hfb.symm⟩
                · exact Or.inr h
              · rintro (⟨h, -⟩ | h)
                · exact Or.inl h
                · exact Or.inr h
            · have hag2' : ma ≠ ag := fun h => hag2 h.symm
              simp [hname, hsex, hfb, Prod.ext_iff, hag2, hag2']
          · have hs' : r.sex ≠ s := fun h => hs h.symm
            simp [hname, hsex, hfb, Prod.ext_iff, hs, hs']

theorem foldl_taStep_mem (standards : AllStandards) (rs : List MeetResult)
    (acc : String × String → Finset String) (s ag n : String) :
    n ∈ (rs.foldl (taStep standards) acc) (s, ag) ↔
      (∃ r ∈ rs, r.name = n ∧ r.name ≠ "" ∧ r.sex = s ∧
        ∃ e es rest, standards.lookup r.sex = some ((e, es) :: rest) ∧
          find_best_age_match r.age (es.map Prod.fst) = some ag) ∨
      n ∈ acc (s, ag) := by
  induction rs generalizing acc with
  | nil => simp
  | cons r rs ih =>
    simp only [List.foldl_cons]
    rw [ih, taStep_mem]
    simp only [List.mem_cons]
    constructor
    · rintro (⟨r', hr', hc⟩ | (hc | h))
      · exact Or.inl ⟨r', Or.inr hr', hc⟩
      · exact Or.inl ⟨r, Or.inl rfl, hc⟩
      · exact Or.inr h
    · rintro (⟨r', hr' | hr', hc⟩ | h)
      · subst hr'
        exact Or.inr (Or.inl hc)
      · exact Or.inl ⟨r', hr', hc⟩
      · exact Or.inr (Or.inr h)

/-- C4: A name `n` is in the `TotalAthletes` set at `(s, ag)` iff some
result in the input carries that (non-empty) name, has sex `s`, the
standards table has an entry for that sex with at least one event, and the
result's age resolves to `ag` via `find_best_age_match` over the age
labels of the gender's first event (the representative age-bracket
vocabulary) — with no condition on the result's time, i.e. regardless of
qualification, and with names deduplicated per bucket by set semantics. -/
theorem total_athletes_mem (meet_results : List MeetResult)
    (standards : AllStandards) (s ag n : String) :
    n ∈ total_athletes meet_results standards (s, ag) ↔
      ∃ r ∈ meet_results, r.name = n ∧ r.name ≠ "" ∧ r.sex = s ∧
        ∃ e es rest, standards.lookup r.sex = some ((e, es) :: rest) ∧
          find_best_age_match r.age (es.map Prod.fst) = some ag := by
  unfold total_athletes
  rw [foldl_taStep_mem]
  simp

section MinByFirst

variable {α : Type _} (f : α → ℕ)

theorem foldMin_mem (x : α) (xs : List α) :
    xs.foldl (fun b y => if f y < f b then y else b) x = x ∨
      xs.foldl (fun b y => if f y < f b then y else b) x ∈ xs := by
  induction xs generalizing x with
  | nil => exact Or.inl rfl
  | cons y ys ih =>
    simp only [List.foldl_cons]
    by_cases hc : f y < f x
    · rw [if_pos hc]
      rcases ih y with h | h
      · exact Or.inr (by rw [h]; exact List.mem_cons_self _ _)
      · exact Or.inr (List.mem_cons_of_mem _ h)
    · rw [if_neg hc]
      rcases ih x with h | h
      · exact Or.inl h
      · exact Or.inr (List.mem_cons_of_mem _ h)

theorem foldMin_le_init (x : α) (xs : List α) :
    f (xs.foldl (fun b y => if f y < f b then y else b) x) ≤ f x := by
  induction xs generalizing x with
  | nil => exact le_refl _
  | cons y ys ih =>
    simp only [List.foldl_cons]
    by_cases hc : f y < f x
    · rw [if_pos hc]
      exact le_trans (ih y) (le_of_lt hc)
    · rw [if_neg hc]
      exact ih x

theorem foldMin_le_mem (x : α) (xs : List α) :
    ∀ y ∈ xs, f (xs.foldl (fun b y => if f y < f b then y else b) x) ≤ f y := by
  induction xs generalizing x with
  | nil => intro y hy; exact absurd hy (List.not_mem_nil y)
  | cons z zs ih =>
    intro y hy
    simp only [List.foldl_cons]
    rcases List.mem_cons.mp hy with h | h
    · subst h
      by_cases hc : f y < f x
      · rw [if_pos hc]
        exact foldMin_le_init f y zs
      · rw [if_neg hc]
        exact le_trans (foldMin_le_init f x zs) (le_of_not_lt hc)
    · by_cases hc : f z < f x
      · rw [if_pos hc]
        exact ih z y h
      · rw [if_neg hc]
        exact ih x y h

theorem foldMin_first (x : α) (xs : List α) :
    ∃ l₁ l₂, x :: xs = l₁ ++ (xs.foldl (fun b y => if f y < f b then y else b) x) :: l₂ ∧
      ∀ y ∈ l₁, f (xs.foldl (fun b y => if f y < f b then y else b) x) < f y := by
  induction xs generalizing x with
  | nil => exact ⟨[], [], rfl, by simp⟩
  | cons y ys ih =>
    simp only [List.foldl_cons]
    by_cases hc : f y < f x
    · rw [if_pos hc]
      obtain ⟨l₁, l₂, heq, hlt⟩ := ih y
      refine ⟨x :: l₁, l₂, ?_, ?_⟩
      · rw [List.cons_append, ← heq]
      · intro z hz
        rcases List.mem_cons.mp hz with h | h
        · subst h
          exact lt_of_le_of_lt (foldMin_le_init f y ys) hc
        · exact hlt z h
    · rw [if_neg hc]
      obtain ⟨l₁, l₂, heq, hlt⟩ := ih x
      rcases l₁ with _ | ⟨b, t⟩
      · simp only [List.nil_append] at heq
        injection heq with h1 h2
        refine ⟨[], y :: ys, ?_, ?_⟩
        · rw [List.nil_append, ← h1]
        · intro z hz
          exact absurd hz (List.not_mem_nil z)
      · simp only [List.cons_append] at heq
        injection heq with h1 h2
        refine ⟨x :: y :: t, l₂, ?_, ?_⟩
        · rw [List.cons_append, List.cons_append, ← h2]
        · intro z hz
          have hrx : f (ys.foldl (fun b y => if f y < f b then y else b) x) < f x := by
            have hb := hlt b (List.mem_cons_self b t)
            rw [← h1] at hb
            exact hb
          rcases List.mem_cons.mp hz with h | h
          · subst h
            exact hrx
          · rcases List.mem_cons.mp h with h' | h'
            · subst h'
              exact lt_of_lt_of_le hrx (le_of_not_lt hc)
            · exact hlt z (List.mem_cons_of_mem b h')

theorem minByFirst_spec (x : α) (xs : List α) :
    ∃ m, minByFirst f (x :: xs) = some m ∧ m ∈ x :: xs ∧
      (∀ y ∈ x :: xs, f m ≤ f y) ∧
      ∃ l₁ l₂, x :: xs = l₁ ++ m :: l₂ ∧ ∀ y ∈ l₁, f m < f y := by
  refine ⟨_, rfl, ?_, ?_, ?_⟩
  · rcases foldMin_mem f x xs with h | h
    · rw [h]
      exact List.mem_cons_self _ _
    · exact List.mem_cons_of_mem _ h
  · intro y hy
    rcases List.mem_cons.mp hy with h | h
    · rw [h]
      exact foldMin_le_init f x xs
    · exact foldMin_le_mem f x xs y h
  · exact foldMin_first f x xs

end MinByFirst

theorem sorted_head_le {first : ℤ × String} {rest : List (ℤ × String)}
    (h : List.Sorted ageKeyLE (first :: rest)) :
    ∀ p ∈ first :: rest, first.1 ≤ p.1 := by
  intro p hp
  rcases List.mem_cons.mp hp with h' | h'
  · rw [h']
  · exact List.rel_of_sorted_cons h p h'

theorem sorted_le_getLastD :
    ∀ (l : List (ℤ × String)) (a d : ℤ × String),
      List.Sorted ageKeyLE (a :: l) →
      ∀ p ∈ a :: l, p.1 ≤ ((a :: l).getLastD d).1 := by
  intro l
  induction l with
  | nil =>
    intro a d _ p hp
    rcases List.mem_cons.mp hp with h' | h'
    · rw [h']
      rfl
    · exact absurd h' (List.not_mem_nil p)
  | cons b m ih =>
    intro a d h p hp
    have hgl : ((a :: b :: m).getLastD d) = ((b :: m).getLastD a) := by
      rw [List.getLastD_cons, List.getLastD_cons]
    rw [hgl]
    rcases List.mem_cons.mp hp with h' | h'
    · subst h'
      rcases List.mem_cons.mp (List.getLastD_mem_cons (b :: m) p) with h'' | h''
      · rw [h'']
      · exact List.rel_of_sorted_cons h _ h''
    · exact ih b a h.of_cons p h'

/-- C2: For a numeric athlete age and a candidate set with at least one
numeric label, `find_best_age_match` returns: the label of an exact numeric
match when one exists; otherwise the label of a numerically smallest
candidate when the athlete age is below every candidate; otherwise the
label of a numerically largest candidate when it is above every candidate;
otherwise the label of a candidate at minimum absolute distance, ties
broken in favor of the candidate first in ascending numeric order (the
tied candidate with the smaller value). -/
theorem find_best_age_match_cases (athlete_age : String)
    (available_ages : List String) (a : ℤ)
    (ha : parseI32 athlete_age = some a)
    (hne : ageCandidates available_ages ≠ []) :
    ((∃ p ∈ ageCandidates available_ages, p.1 = a) →
      ∃ q ∈ ageCandidates available_ages, q.1 = a ∧
        find_best_age_match athlete_age available_ages = some q.2) ∧
    ((∀ p ∈ ageCandidates available_ages, a < p.1) →
      ∃ q ∈ ageCandidates available_ages,
        (∀ p ∈ ageCandidates available_ages, q.1 ≤ p.1) ∧
        find_best_age_match athlete_age available_ages = some q.2) ∧
    ((∀ p ∈ ageCandidates available_ages, p.1 < a) →
      ∃ q ∈ ageCandidates available_ages,
        (∀ p ∈ ageCandidates available_ages, p.1 ≤ q.1) ∧
        find_best_age_match athlete_age available_ages = some q.2) ∧
    ((∀ p ∈ ageCandidates available_ages, p.1 ≠ a) →
     (∃ p ∈ ageCandidates available_ages, p.1 ≤ a) →
     (∃ p ∈ ageCandidates available_ages, a ≤ p.1) →
      ∃ q ∈ ageCandidates available_ages,
        (∀ p ∈ ageCandidates available_ages,
          (a - q.1).natAbs ≤ (a - p.1).natAbs) ∧
        (∀ p ∈ ageCandidates available_ages,
          (a - p.1).natAbs = (a - q.1).natAbs → q.1 ≤ p.1) ∧
        find_best_age_match athlete_age available_ages = some q.2) := by
  have hperm := List.perm_insertionSort ageKeyLE (ageCandidates available_ages)
  have hsort := List.sorted_insertionSort ageKeyLE (ageCandidates available_ages)
  rcases hsorted : (ageCandidates available_ages).insertionSort ageKeyLE with _ | ⟨first, rest⟩
  · rw [hsorted] at hperm
    exact absurd hperm.symm.eq_nil hne
  · rw [hsorted] at hperm hsort
    have hmem : ∀ p : ℤ × String,
        p ∈ first :: rest ↔ p ∈ ageCandidates available_ages :=
      fun p => hperm.mem_iff
    simp only [find_best_age_match, ha, Option.bind, hsorted]
    rcases hf : (first :: rest).find? (fun p => p.1 == a) with _ | p
    · have hnoexact : ∀ p ∈ first :: rest, p.1 ≠ a := by
        intro p hp
        have := List.find?_eq_none.mp hf p hp
        simpa using this
      simp only [hf]
      refine ⟨?_, ?_, ?_, ?_⟩
      · rintro ⟨p, hp, hpa⟩
        exact absurd hpa (hnoexact p ((hmem p).mpr hp))
      · intro hbelow
        have h1 : a < first.1 :=
          hbelow first ((hmem first).mp (List.mem_cons_self _ _))
        rw [if_pos h1]
        refine ⟨first, (hmem first).mp (List.mem_cons_self _ _), ?_, rfl⟩
        intro p hp
        exact sorted_head_le hsort p ((hmem p).mpr hp)
      · intro habove
        have hlast_mem : (first :: rest).getLastD first ∈ first :: rest := by
          rw [List.getLastD_cons]
          exact List.getLastD_mem_cons rest first
        have h1 : ¬a < first.1 :=
          not_lt.mpr (le_of_lt
            (habove first ((hmem first).mp (List.mem_cons_self _ _))))
        rw [if_neg h1]
        have h2 : ((first :: rest).getLastD first).1 < a :=
          habove _ ((hmem _).mp hlast_mem)
        rw [if_pos h2]
        refine ⟨_, (hmem _).mp hlast_mem, ?_, rfl⟩
        intro p hp
        exact sorted_le_getLastD rest first first hsort p ((hmem p).mpr hp)
      · intro hne' hlow hhigh
        obtain ⟨p0, hp0, hp0le⟩ := hlow
        obtain ⟨p1, hp1, hp1ge⟩ := hhigh
        have h1 : ¬a < first.1 :=
          not_lt.mpr
            (le_trans (sorted_head_le hsort p0 ((hmem p0).mpr hp0)) hp0le)
        rw [if_neg h1]
        have h2 : ¬((first :: rest).getLastD first).1 < a :=
          not_lt.mpr
            (le_trans hp1ge
              (sorted_le_getLastD rest first first hsort p1 ((hmem p1).mpr hp1)))
        rw [if_neg h2]
        obtain ⟨m, hmeq, hmmem, hmle, l₁, l₂, heq, hlt⟩ :=
          minByFirst_spec (fun p : ℤ × String => (a - p.1).natAbs) first rest
        rw [hmeq]
        refine ⟨m, (hmem m).mp hmmem, ?_, ?_, rfl⟩
        · intro p hp
          exact hmle p ((hmem p).mpr hp)
        · intro p hp hdist
          have hp' : p ∈ l₁ ++ m :: l₂ := heq ▸ ((hmem p).mpr hp)
          rcases List.mem_append.mp hp' with h | h
          · exfalso
            have := hlt p h
            rw [hdist] at this
            exact lt_irrefl _ this
          · rcases List.mem_cons.mp h with h' | h'
            · rw [h']
            · have hsort' : List.Sorted ageKeyLE (l₁ ++ m :: l₂) := heq ▸ hsort
              exact List.rel_of_sorted_cons
                (List.pairwise_append.mp hsort').2.1 p h'
    · have hpa : p.1 = a := by simpa using List.find?_some hf
      have hpmem : p ∈ first :: rest := List.mem_of_find?_eq_some hf
      simp only [hf]
      refine ⟨?_, ?_, ?_, ?_⟩
      · intro _
        exact ⟨p, (hmem p).mp hpmem, hpa, rfl⟩
      · intro hbelow
        exact absurd hpa (ne_of_gt (hbelow p ((hmem p).mp hpmem)))
      · intro habove
        exact absurd hpa (ne_of_lt (habove p ((hmem p).mp hpmem)))
      · intro hne' _ _
        exact absurd hpa (hne' p ((hmem p).mp hpmem))

/-- Witness for C2: the interior case at athlete age `"12"` with candidate
labels `["10", "14"]` — both are at distance `2`, and the tie goes to the
numerically smaller candidate. -/
theorem find_best_age_match_cases_witness :
    ∃ q ∈ ageCandidates ["10", "14"],
      (∀ p ∈ ageCandidates ["10", "14"],
        ((12 : ℤ) - q.1).natAbs ≤ ((12 : ℤ) - p.1).natAbs) ∧
      (∀ p ∈ ageCandidates ["10", "14"],
        ((12 : ℤ) - p.1).natAbs = ((12 : ℤ) - q.1).natAbs → q.1 ≤ p.1) ∧
      find_best_age_match "12" ["10", "14"] = some q.2 :=
  (find_best_age_match_cases "12" ["10", "14"] 12 (by decide)
    (by decide)).2.2.2 (by decide) (by decide) (by decide)

/-- C9: `find_best_age_match` returns `none` if and only if the athlete
age does not parse as an integer or no available age label parses as an
integer; in every other case it returns some label. -/
theorem find_best_age_match_none_iff (athlete_age : String)
    (available_ages : List String) :
    find_best_age_match athlete_age available_ages = none ↔
      parseI32 athlete_age = none ∨ ageCandidates available_ages = [] := by
  rcases hp : parseI32 athlete_age with _ | a
  · simp [find_best_age_match, hp, Option.bind]
  · rcases hsorted : (ageCandidates available_ages).insertionSort ageKeyLE
      with _ | ⟨first, rest⟩
    · have hnil : ageCandidates available_ages = [] := by
        have hperm := List.perm_insertionSort ageKeyLE (ageCandidates available_ages)
        rw [hsorted] at hperm
        exact hperm.symm.eq_nil
      simp [find_best_age_match, hp, Option.bind, hsorted, hnil]
    · have hne : ageCandidates available_ages ≠ [] := by
        intro h
        rw [h] at hsorted
        exact absurd hsorted (by simp [List.insertionSort])
      simp only [find_best_age_match, hp, Option.bind, hsorted]
      rcases hf : (first :: rest).find? (fun p => p.1 == a) with _ | q
      · simp only [hf]
        split_ifs <;> simp [minByFirst, hne]
      · simp only [hf]
        simp [hne]

/-- Witness for C9 at a concrete success: athlete `"13"` with labels
`["11", "14"]` resolves to some label, and the failure cases return
`none`. -/
theorem find_best_age_match_none_iff_witness :
    (find_best_age_match "13" ["11", "14"] = none ↔
      parseI32 "13" = none ∨ ageCandidates ["11", "14"] = []) ∧
    (find_best_age_match "abc" ["11"] = none ↔
      parseI32 "abc" = none ∨ ageCandidates ["11"] = []) :=
  ⟨find_best_age_match_none_iff "13" ["11", "14"],
   find_best_age_match_none_iff "abc" ["11"]⟩

end RustDataAnalysis
